import Mathlib

/-!
# Verification of the superspreader core
  (reddit-trend-analysis, `modules/superspreaders.py`)

This file is a shallow embedding of the interaction-graph construction and
centrality-ranking engine of the repository:

* `build_interaction_graph` (superspreaders.py, lines 15-150): the two
  normalized relations (post_id, post_author) and (post_id, comment_author)
  are modelled as `List PostRow` / `List CommentRow`; the values are the
  strings obtained after the `fillna("[deleted]")` / `astype(str).str.strip()`
  normalization of lines 97-105, so a missing author is already the literal
  string "[deleted]".  The networkx graph is modelled operationally by the
  `Graph` structure below, and the two edge-generation passes are folds that
  mirror the Python loops statement by statement.
* the comment-author column resolution of lines 87-94
  (`resolveCommentAuthorCol`).
* `compute_centralities` (lines 152-175): the three networkx centrality
  calls are external library functions; their results enter the embedding as
  function parameters (`deg`, `btw`, and `prResult`, the latter `none` when
  `nx.pagerank` raises, which is exactly the `except` branch of lines
  160-163).  The pandas `sort_values(["pagerank", "degree", "betweenness"],
  ascending=False)` of line 174 is a stable multi-key descending sort
  (pandas uses a stable lexicographic sorter for multi-key sorts); it is
  embedded as the stable insertion sort `sortS` with the strict comparison
  `centLt`.
* `save_top_influencers` / the `head(top_n)` slice of lines 177-188:
  `DataFrame.head(n)` returns `self.iloc[:n]`, i.e. the first `n` rows for
  `n ≥ 0` and all rows except the last `|n|` for negative `n`; embedded as
  `dfHead`.

Edge `type` tags ("author_comment" / "co_comment") are set only at edge
creation and are informational metadata (never read back); they are not
modelled.  The Python `set` of users iterates in an arbitrary
(hash-dependent) order; the embedding uses first-occurrence order, and no
theorem below depends on that choice beyond membership.
-/

/-! ## Generic list helpers -/

/-- First-occurrence deduplication with an accumulator of already seen
values; `uniqueFirst l = uniqueFirstAux [] l` matches the semantics of
`pandas.Series.unique` (order of first appearance). -/
def uniqueFirstAux {α : Type} [DecidableEq α] : List α → List α → List α
  | _, [] => []
  | seen, a :: l =>
    if a ∈ seen then uniqueFirstAux seen l
    else a :: uniqueFirstAux (a :: seen) l

/-- `pandas.Series.unique`: distinct values in order of first appearance. -/
def uniqueFirst {α : Type} [DecidableEq α] (l : List α) : List α :=
  uniqueFirstAux [] l

/-- `itertools.combinations(l, 2)`: all pairs `(l[i], l[j])` with `i < j`,
in the order the Python generator yields them. -/
def pairs2 {α : Type} : List α → List (α × α)
  | [] => []
  | a :: l => (l.map (fun b => (a, b))) ++ pairs2 l

/-- Stable insertion step: `a` is placed before the first element that is
not strictly earlier than `a` under `lt`, so elements tied with `a` that
were already in the list stay before `a`. -/
def insertS {α : Type} (lt : α → α → Bool) (a : α) : List α → List α
  | [] => [a]
  | b :: l => if lt b a then b :: insertS lt a l else a :: b :: l

/-- Stable sort by the strict comparison `lt` (elements that compare equal
keep their original relative order), modelling the stable multi-key sort
used by `DataFrame.sort_values` with several sort keys. -/
def sortS {α : Type} (lt : α → α → Bool) : List α → List α
  | [] => []
  | a :: l => insertS lt a (sortS lt l)

/-! ## The two normalized relations -/

/-- One row of the normalized post relation (superspreaders.py lines
97-98): `post_id` and `post_author` as plain strings, `NaN` already
replaced by `"[deleted]"` and identifiers stripped. -/
structure PostRow where
  post_id : String
  post_author : String
deriving DecidableEq, Repr

/-- One row of the normalized comment relation (superspreaders.py lines
100-101). -/
structure CommentRow where
  post_id : String
  comment_author : String
deriving DecidableEq, Repr

/-! ## Comment-author column resolution (lines 87-94) -/

/-- Python `str.lower()` as used on the ASCII column headers (the
builtin `String.toLower` is not used because this development keeps every
definition kernel-computable; on ASCII the two agree). -/
def lowerString (s : String) : String :=
  ⟨s.data.map Char.toLower⟩

/-- The exact header names accepted for the comment-author role
(superspreaders.py line 89). -/
def commentAuthorHeuristics : List String :=
  ["author", "comment_author", "user", "username", "by"]

/-- Embedding of superspreaders.py lines 87-94: scan the comment columns
for the first one whose lowercase name is in `commentAuthorHeuristics`;
if none matches, fall back to the second column if there are at least two,
else the first.  Returns `none` only for an empty column list (a
`pandas.DataFrame` read from CSV always has at least one column). -/
def resolveCommentAuthorCol (columns : List String) : Option String :=
  match columns.find? (fun c => commentAuthorHeuristics.contains (lowerString c)) with
  | some c => some c
  | none => if 1 < columns.length then columns[1]? else columns[0]?

/-! ## Reply pairs (lines 115-126) -/

/-- The merged rows a single comment produces under
`comments_df.merge(posts_df, on="post_id", how="left")`: one row per
matching post (with `some post_author`), or a single row with a missing
(`none`) post author when no post matches. -/
def mergedAuthors (posts : List PostRow) (c : CommentRow) : List (Option String) :=
  let ms := posts.filter (fun p => p.post_id = c.post_id)
  if ms.isEmpty then [none] else ms.map (fun p => some p.post_author)

/-- The `(post_author, commenter)` pairs one comment appends to
`author_comment_pairs` in the loop of lines 118-126: a missing post author
becomes `"[deleted]"` (line 120); rows whose commenter is `""` or
`"[deleted]"` are skipped (lines 122-123), as are rows where the commenter
equals the post author (lines 124-125). -/
def replyPairsOfComment (posts : List PostRow) (c : CommentRow) : List (String × String) :=
  (mergedAuthors posts c).filterMap (fun oa =>
    if c.comment_author = "" ∨ c.comment_author = "[deleted]" then none
    else if c.comment_author = oa.getD "[deleted]" then none
    else some (oa.getD "[deleted]", c.comment_author))

/-- The full `author_comment_pairs` list (lines 117-126), in row order of
the merged frame. -/
def replyPairs (posts : List PostRow) (comments : List CommentRow) : List (String × String) :=
  comments.flatMap (replyPairsOfComment posts)

/-- `collections.Counter(l).items()`: one entry per distinct value, in
first-insertion order, carrying its multiplicity in `l`. -/
def counterItems (l : List (String × String)) : List ((String × String) × Nat) :=
  (uniqueFirst l).map (fun p => (p, l.count p))

/-! ## Co-comment groups (lines 137-148) -/

/-- The distinct group keys of `comments_df.groupby("post_id")`, iterated
in ascending key order (pandas sorts group keys when iterating). -/
def groupIds (comments : List CommentRow) : List String :=
  sortS (fun a b => decide (a < b)) (uniqueFirst (comments.map (fun c => c.post_id)))

/-- `group["comment_author"].unique()` for the group of a given post id
(line 139): the distinct commenters of that group, in first-occurrence
order. -/
def groupCommenters (comments : List CommentRow) (pid : String) : List String :=
  uniqueFirst ((comments.filter (fun c => c.post_id = pid)).map (fun c => c.comment_author))

/-- The co-participation pair increments generated from one group's
distinct commenter list (lines 140-148): nothing for fewer than two
commenters, otherwise every combination of two commenters (the `u == v`
guard of line 143 kept for fidelity). -/
def coPairsOfList (commenters : List String) : List (String × String) :=
  if commenters.length < 2 then []
  else (pairs2 commenters).filter (fun p => !(p.1 == p.2))

/-- The co-participation pair increments one post-id group generates
(lines 138-148). -/
def coPairsOfGroup (comments : List CommentRow) (pid : String) : List (String × String) :=
  coPairsOfList (groupCommenters comments pid)

/-- All co-participation pair increments of the co-comment pass, over all
groups. -/
def coPairs (comments : List CommentRow) : List (String × String) :=
  (groupIds comments).flatMap (coPairsOfGroup comments)

/-! ## The networkx graph, operationally -/

/-- `True` when `p` and `q` denote the same unordered pair of endpoints
(networkx `Graph` edges are undirected). -/
def sameUPair (p q : String × String) : Bool :=
  p == q || (p.1 == q.2 && p.2 == q.1)

/-- An undirected weighted graph as networkx builds it here: nodes in
insertion order, and one entry per undirected edge, carrying the stored
endpoint orientation and the accumulated integer weight. -/
structure Graph where
  nodes : List String
  edges : List ((String × String) × Nat)
deriving DecidableEq, Repr

/-- `nx.Graph()` (line 108). -/
def Graph.empty : Graph := ⟨[], []⟩

/-- `G.add_node(u)`: a no-op when the node is already present. -/
def Graph.addNode (G : Graph) (u : String) : Graph :=
  if u ∈ G.nodes then G else ⟨G.nodes ++ [u], G.edges⟩

/-- `G.has_edge(u, v)` (undirected membership test). -/
def Graph.hasEdge (G : Graph) (u v : String) : Bool :=
  G.edges.any (fun e => sameUPair e.1 (u, v))

/-- The accumulated weight between `u` and `v` (`0` when no edge). -/
def Graph.weight (G : Graph) (u v : String) : Nat :=
  ((G.edges.filter (fun e => sameUPair e.1 (u, v))).map (fun e => e.2)).sum

/-- `G[u][v]["weight"] += w` on an existing edge. -/
def Graph.bumpWeight (G : Graph) (u v : String) (w : Nat) : Graph :=
  ⟨G.nodes, G.edges.map (fun e => if sameUPair e.1 (u, v) then (e.1, e.2 + w) else e)⟩

/-- `G.add_edge(u, v, weight=w)`: missing endpoints are added as nodes. -/
def Graph.addEdge (G : Graph) (u v : String) (w : Nat) : Graph :=
  ⟨((G.addNode u).addNode v).nodes, G.edges ++ [((u, v), w)]⟩

/-- The `if G.has_edge(a, b): bump else: add_edge` pattern both passes use
(lines 132-135 and 145-148). -/
def Graph.incr (G : Graph) (u v : String) (w : Nat) : Graph :=
  if G.hasEdge u v then G.bumpWeight u v w else G.addEdge u v w

/-- Well-formedness maintained by the construction: no two edge entries
denote the same unordered pair (networkx stores one edge per pair). -/
def Graph.Ok (G : Graph) : Prop :=
  G.edges.Pairwise (fun e1 e2 => sameUPair e1.1 e2.1 = false)

/-- Total weight that a list of weighted edge entries assigns to the
unordered pair `{x, y}`. -/
def wsum (es : List ((String × String) × Nat)) (x y : String) : Nat :=
  ((es.filter (fun e => sameUPair e.1 (x, y))).map (fun e => e.2)).sum

/-- Number of pair increments in `ps` that hit the unordered pair
`{x, y}`. -/
def matchCount (ps : List (String × String)) (x y : String) : Nat :=
  (ps.filter (fun p => sameUPair p (x, y))).length

/-- The `w >= min_edge_weight` gate of line 131 applied to a single
counter multiplicity: the multiplicity survives only when it reaches the
threshold. -/
def gatedCount (m : Int) (n : Nat) : Nat :=
  if m ≤ (n : Int) then n else 0

/-- The multiplicity of the ordered pair `(a, b)` in
`author_comment_pairs` (the value `Counter` associates to that key). -/
def replyCount (posts : List PostRow) (comments : List CommentRow) (a b : String) : Nat :=
  (replyPairs posts comments).count (a, b)

/-- Total co-participation weight the co-comment pass assigns to the
unordered pair `{u, v}` (increments arrive in either orientation). -/
def coContribution (comments : List CommentRow) (u v : String) : Nat :=
  (coPairs comments).count (u, v) + (coPairs comments).count (v, u)

/-- The node seeding of lines 110-113: every distinct post author and
comment author becomes a node (the Python `set` union iterates in an
arbitrary order; first-occurrence order is used here). -/
def allUsers (posts : List PostRow) (comments : List CommentRow) : List String :=
  uniqueFirst (posts.map (fun p => p.post_author) ++ comments.map (fun c => c.comment_author))

/-- `for u in all_users: G.add_node(u)` (lines 112-113). -/
def addAllNodes (G : Graph) (users : List String) : Graph :=
  users.foldl Graph.addNode G

/-- The reply-edge pass (lines 129-135): iterate the counter items and,
for each pair whose multiplicity reaches `min_edge_weight`, add that
multiplicity to the pair's edge. -/
def applyReplyPass (G : Graph) (items : List ((String × String) × Nat)) (m : Int) : Graph :=
  items.foldl (fun g it => if m ≤ (it.2 : Int) then g.incr it.1.1 it.1.2 it.2 else g) G

/-- The inner loop of the co-comment pass for one group (lines 139-148):
skipped entirely for fewer than two distinct commenters, otherwise each
combination of two commenters gets a weight-1 increment (no
`min_edge_weight` check here). -/
def applyCoGroup (G : Graph) (commenters : List String) : Graph :=
  if commenters.length < 2 then G
  else (pairs2 commenters).foldl
    (fun g p => if p.1 == p.2 then g else g.incr p.1 p.2 1) G

/-- The co-comment pass over all groups (lines 138-148). -/
def applyCoPass (G : Graph) (comments : List CommentRow) : Graph :=
  (groupIds comments).foldl (fun g pid => applyCoGroup g (groupCommenters comments pid)) G

/-- Embedding of `build_interaction_graph` (lines 107-150) on the already
normalized relations: seed the nodes, run the thresholded reply pass over
the counted `author_comment_pairs`, then the co-comment pass. -/
def build_interaction_graph (posts : List PostRow) (comments : List CommentRow)
    (min_edge_weight : Int) : Graph :=
  let G1 := addAllNodes Graph.empty (allUsers posts comments)
  let G2 := applyReplyPass G1 (counterItems (replyPairs posts comments)) min_edge_weight
  applyCoPass G2 comments

/-! ## compute_centralities (lines 152-175) -/

/-- One row of the centrality table (lines 166-172). -/
structure CentRow where
  user : String
  degree : ℚ
  betweenness : ℚ
  pagerank : ℚ
deriving DecidableEq, Repr

/-- The strict "comes earlier" comparison realized by
`sort_values(["pagerank", "degree", "betweenness"], ascending=False)`:
`x` strictly precedes `y` when `x` is lexicographically greater on the
triple (pagerank, degree, betweenness). -/
def centLt (x y : CentRow) : Bool :=
  decide (y.pagerank < x.pagerank ∨ (y.pagerank = x.pagerank ∧
    (y.degree < x.degree ∨ (y.degree = x.degree ∧ y.betweenness < x.betweenness))))

/-- The sort key of line 174, as a triple. -/
def centKey (r : CentRow) : ℚ × ℚ × ℚ :=
  (r.pagerank, r.degree, r.betweenness)

/-- The unsorted rows of lines 165-172, one per node in node order.
`deg` and `btw` are the results of the `nx.degree_centrality` /
`nx.betweenness_centrality` library calls; `prResult` is `some pr` when
`nx.pagerank` returns and `none` when it raises, in which case the
`except` branch (lines 162-163) assigns `0.0` to every node. -/
def centRows (nodes : List String) (deg btw : String → ℚ)
    (prResult : Option (String → ℚ)) : List CentRow :=
  let pr : String → ℚ := match prResult with
    | some f => f
    | none => fun _ => 0
  nodes.map (fun n => ⟨n, deg n, btw n, pr n⟩)

/-- Embedding of `compute_centralities` (lines 152-175): an empty node set
yields the empty table (line 154-155); otherwise one row per node, stably
sorted descending by (pagerank, degree, betweenness). -/
def compute_centralities (nodes : List String) (deg btw : String → ℚ)
    (prResult : Option (String → ℚ)) : List CentRow :=
  if nodes.length = 0 then []
  else sortS centLt (centRows nodes deg btw prResult)

/-! ## Top-N extraction (lines 177-188) -/

/-- `DataFrame.head(n)`, i.e. the slice `iloc[:n]`: the first `n` rows
when `n ≥ 0` (clamped to the length), and all rows except the last `|n|`
when `n` is negative. -/
def dfHead {α : Type} (l : List α) (n : Int) : List α :=
  if 0 ≤ n then l.take n.toNat else l.take (l.length - n.natAbs)

/-- Embedding of the row selection of `save_top_influencers` (line 179):
the rows written to the CSV are `df_central.head(top_n)`.  The same
`head(top_n)` slice picks the `top_nodes` of `draw_graph` (line 185). -/
def save_top_influencers (df_central : List CentRow) (top_n : Int) : List CentRow :=
  dfHead df_central top_n

/-! ## Lemmas: first-occurrence deduplication -/

theorem mem_uniqueFirstAux {α : Type} [DecidableEq α] (l : List α) :
    ∀ (seen : List α) (x : α), x ∈ uniqueFirstAux seen l ↔ x ∈ l ∧ x ∉ seen := by
  induction l with
  | nil => intro seen x; simp [uniqueFirstAux]
  | cons a l ih =>
    intro seen x
    simp only [uniqueFirstAux, List.mem_cons]
    by_cases h : a ∈ seen
    · rw [if_pos h, ih]
      constructor
      · rintro ⟨hx, hns⟩; exact ⟨Or.inr hx, hns⟩
      · rintro ⟨hx | hx, hns⟩
        · exact absurd (hx ▸ h) hns
        · exact ⟨hx, hns⟩
    · rw [if_neg h]
      simp only [List.mem_cons, ih, List.mem_cons]
      constructor
      · rintro (rfl | ⟨hx, hns⟩)
        · exact ⟨Or.inl rfl, h⟩
        · refine ⟨Or.inr hx, fun hs => hns (Or.inr hs)⟩
      · rintro ⟨rfl | hx, hns⟩
        · exact Or.inl rfl
        · by_cases hxa : x = a
          · exact Or.inl hxa
          · exact Or.inr ⟨hx, fun hs => hns (by rcases hs with h1 | h1; exact absurd h1 hxa; exact h1)⟩

theorem mem_uniqueFirst {α : Type} [DecidableEq α] (l : List α) (x : α) :
    x ∈ uniqueFirst l ↔ x ∈ l := by
  simp [uniqueFirst, mem_uniqueFirstAux]

theorem nodup_uniqueFirstAux {α : Type} [DecidableEq α] (l : List α) :
    ∀ seen : List α, (uniqueFirstAux seen l).Nodup := by
  induction l with
  | nil => intro seen; simp [uniqueFirstAux]
  | cons a l ih =>
    intro seen
    simp only [uniqueFirstAux]
    by_cases h : a ∈ seen
    · simpa [h] using ih seen
    · rw [if_neg h]
      simp only [List.nodup_cons]
      refine ⟨fun hmem => ?_, ih _⟩
      exact ((mem_uniqueFirstAux l _ a).mp hmem).2 (List.mem_cons_self a seen)

theorem nodup_uniqueFirst {α : Type} [DecidableEq α] (l : List α) :
    (uniqueFirst l).Nodup :=
  nodup_uniqueFirstAux l []

/-! ## Lemmas: pairs2 (combinations of two) -/

theorem pairs2_length_mul_two {α : Type} (l : List α) :
    (pairs2 l).length * 2 = l.length * (l.length - 1) := by
  induction l with
  | nil => simp [pairs2]
  | cons a l ih =>
    simp only [pairs2, List.length_append, List.length_map, List.length_cons]
    have h2 : (l.length + (pairs2 l).length) * 2
        = l.length * 2 + (pairs2 l).length * 2 := by ring
    rw [h2, ih]
    cases l with
    | nil => simp
    | cons b t =>
      simp only [List.length_cons, Nat.add_sub_cancel]
      ring

theorem pairs2_length {α : Type} (l : List α) :
    (pairs2 l).length = l.length * (l.length - 1) / 2 := by
  have h := pairs2_length_mul_two l
  omega

theorem count_map_pairFst {α : Type} [DecidableEq α] (a u v : α) (l : List α) :
    (l.map (fun b => (a, b))).count (u, v) = if a = u then l.count v else 0 := by
  induction l with
  | nil => simp
  | cons b t ih =>
    simp only [List.map_cons, List.count_cons, ih, Prod.mk.injEq]
    by_cases hau : a = u <;> by_cases hbv : b = v <;>
      simp [hau, hbv, beq_iff_eq] <;> omega

theorem count_pairs2_nodup {α : Type} [DecidableEq α] (l : List α) (hl : l.Nodup)
    (u v : α) (huv : u ≠ v) :
    (pairs2 l).count (u, v) + (pairs2 l).count (v, u)
      = if u ∈ l ∧ v ∈ l then 1 else 0 := by
  induction l with
  | nil => simp [pairs2]
  | cons a t ih =>
    rcases List.nodup_cons.mp hl with ⟨ha, ht⟩
    have iht := ih ht
    simp only [pairs2, List.count_append, count_map_pairFst, List.mem_cons]
    by_cases hau : a = u
    · subst hau
      have hav : ¬ a = v := huv
      have h0 : (pairs2 t).count (a, v) + (pairs2 t).count (v, a) = 0 := by
        rw [iht, if_neg]
        rintro ⟨hu, _⟩
        exact ha hu
      rw [if_pos rfl, if_neg hav]
      by_cases hv : v ∈ t
      · rw [List.count_eq_one_of_mem ht hv,
          if_pos ⟨Or.inl rfl, Or.inr hv⟩]
        omega
      · rw [List.count_eq_zero_of_not_mem hv, if_neg]
        · omega
        · rintro ⟨_, rfl | h⟩
          · exact hav rfl
          · exact hv h
    · by_cases hav : a = v
      · subst hav
        have h0 : (pairs2 t).count (u, a) + (pairs2 t).count (a, u) = 0 := by
          rw [iht, if_neg]
          rintro ⟨_, hv⟩
          exact ha hv
        rw [if_neg hau, if_pos rfl]
        by_cases hu : u ∈ t
        · rw [List.count_eq_one_of_mem ht hu,
            if_pos ⟨Or.inr hu, Or.inl rfl⟩]
          omega
        · rw [List.count_eq_zero_of_not_mem hu, if_neg]
          · omega
          · rintro ⟨rfl | h, _⟩
            · exact hau rfl
            · exact hu h
      · rw [if_neg hau, if_neg hav]
        have hmu : (u = a ∨ u ∈ t) ↔ u ∈ t := by
          constructor
          · rintro (rfl | h); exact absurd rfl hau; exact h
          · exact Or.inr
        have hmv : (v = a ∨ v ∈ t) ↔ v ∈ t := by
          constructor
          · rintro (rfl | h); exact absurd rfl hav; exact h
          · exact Or.inr
        rw [if_congr (and_congr hmu hmv) rfl rfl]
        simp only [Nat.zero_add]
        exact iht

theorem pairs2_ne_of_nodup {α : Type} [DecidableEq α] (l : List α) (hl : l.Nodup) :
    ∀ p ∈ pairs2 l, ¬ p.1 = p.2 := by
  induction l with
  | nil => simp [pairs2]
  | cons a t ih =>
    rcases List.nodup_cons.mp hl with ⟨ha, ht⟩
    intro p hp
    simp only [pairs2, List.mem_append, List.mem_map] at hp
    rcases hp with ⟨b, hb, rfl⟩ | hp
    · intro h
      have hab : a = b := h
      exact ha (hab ▸ hb)
    · exact ih ht p hp

theorem coPairsOfList_eq_pairs2 (cs : List String) (hnd : cs.Nodup) (h2 : 2 ≤ cs.length) :
    coPairsOfList cs = pairs2 cs := by
  rw [coPairsOfList, if_neg (by omega)]
  apply List.filter_eq_self.mpr
  intro p hp
  simpa using pairs2_ne_of_nodup cs hnd p hp

/-! ## Lemmas: the stable insertion sort -/

theorem insertS_perm {α : Type} (lt : α → α → Bool) (a : α) (l : List α) :
    (insertS lt a l).Perm (a :: l) := by
  induction l with
  | nil => exact List.Perm.refl _
  | cons b t ih =>
    simp only [insertS]
    by_cases h : lt b a = true
    · rw [if_pos h]
      exact (ih.cons b).trans (List.Perm.swap a b t)
    · rw [if_neg h]

theorem sortS_perm {α : Type} (lt : α → α → Bool) (l : List α) :
    (sortS lt l).Perm l := by
  induction l with
  | nil => exact List.Perm.refl _
  | cons a t ih =>
    exact (insertS_perm lt a (sortS lt t)).trans (ih.cons a)

theorem mem_insertS {α : Type} (lt : α → α → Bool) (a x : α) (l : List α) :
    x ∈ insertS lt a l ↔ x = a ∨ x ∈ l := by
  rw [(insertS_perm lt a l).mem_iff]
  simp

theorem pairwise_insertS {α : Type} (lt : α → α → Bool)
    (htr : ∀ x y z, lt x y = false → lt y z = false → lt x z = false)
    (hasym : ∀ x y, lt x y = true → lt y x = false)
    (a : α) (l : List α) (hl : l.Pairwise (fun x y => lt y x = false)) :
    (insertS lt a l).Pairwise (fun x y => lt y x = false) := by
  induction l with
  | nil => simp [insertS]
  | cons b t ih =>
    rcases List.pairwise_cons.mp hl with ⟨hb, ht⟩
    simp only [insertS]
    by_cases h : lt b a = true
    · rw [if_pos h]
      refine List.pairwise_cons.mpr ⟨?_, ih ht⟩
      intro x hx
      rcases (mem_insertS lt a x t).mp hx with rfl | hx
      · exact hasym b x h
      · exact hb x hx
    · rw [if_neg h]
      have hba : lt b a = false := Bool.eq_false_iff.mpr h
      refine List.pairwise_cons.mpr ⟨?_, hl⟩
      intro x hx
      rcases List.mem_cons.mp hx with rfl | hx
      · exact hba
      · exact htr x b a (hb x hx) hba

theorem pairwise_sortS {α : Type} (lt : α → α → Bool)
    (htr : ∀ x y z, lt x y = false → lt y z = false → lt x z = false)
    (hasym : ∀ x y, lt x y = true → lt y x = false)
    (l : List α) :
    (sortS lt l).Pairwise (fun x y => lt y x = false) := by
  induction l with
  | nil => simp [sortS]
  | cons a t ih =>
    exact pairwise_insertS lt htr hasym a (sortS lt t) ih

theorem filter_insertS {α : Type} (lt : α → α → Bool) (q : α → Bool) (a : α)
    (h : q a = true → ∀ b, q b = true → lt b a = false) (l : List α) :
    (insertS lt a l).filter q = if q a then a :: l.filter q else l.filter q := by
  induction l with
  | nil =>
    by_cases hqa : q a = true
    · simp [insertS, List.filter_cons, hqa]
    · simp [insertS, List.filter_cons, Bool.eq_false_iff.mpr hqa]
  | cons b t ih =>
    simp only [insertS]
    by_cases hba : lt b a = true
    · rw [if_pos hba]
      by_cases hqa : q a = true
      · have hqb : q b = false := by
          by_cases hqb : q b = true
          · have := h hqa b hqb
            rw [this] at hba
            exact absurd hba (by simp)
          · exact Bool.eq_false_iff.mpr hqb
        rw [List.filter_cons, List.filter_cons]
        simp [hqb, ih, hqa]
      · have hqa' : q a = false := Bool.eq_false_iff.mpr hqa
        rw [List.filter_cons, ih, List.filter_cons]
        simp [hqa']
    · rw [if_neg hba]
      rw [List.filter_cons]

theorem filter_sortS {α : Type} (lt : α → α → Bool) (q : α → Bool)
    (h : ∀ a b, q a = true → q b = true → lt b a = false) (l : List α) :
    (sortS lt l).filter q = l.filter q := by
  induction l with
  | nil => simp [sortS]
  | cons a t ih =>
    simp only [sortS]
    rw [filter_insertS lt q a (fun hqa b hqb => h a b hqa hqb) (sortS lt t), ih]
    rw [List.filter_cons]

/-! ## Lemmas: the centrality comparison -/

theorem centLt_asym (x y : CentRow) : centLt x y = true → centLt y x = false := by
  simp only [centLt, decide_eq_true_eq, decide_eq_false_iff_not]
  rintro (h | ⟨he, h | ⟨hd, hb⟩⟩) <;>
    rintro (h' | ⟨he', h' | ⟨hd', hb'⟩⟩) <;> linarith

theorem centLt_negtrans (x y z : CentRow) :
    centLt x y = false → centLt y z = false → centLt x z = false := by
  simp only [centLt, decide_eq_false_iff_not]
  intro hxy hyz
  push_neg at hxy hyz ⊢
  obtain ⟨h1, h2⟩ := hxy
  obtain ⟨g1, g2⟩ := hyz
  refine ⟨le_trans h1 g1, fun hpz => ?_⟩
  obtain ⟨hd1, hd2⟩ := h2 (by linarith)
  obtain ⟨gd1, gd2⟩ := g2 (by linarith)
  refine ⟨le_trans hd1 gd1, fun hdz => ?_⟩
  exact le_trans (hd2 (by linarith)) (gd2 (by linarith))

theorem centLt_of_key_eq (x y : CentRow) (h : centKey x = centKey y) :
    centLt y x = false := by
  simp only [centKey, Prod.mk.injEq] at h
  obtain ⟨h1, h2, h3⟩ := h
  simp only [centLt, decide_eq_false_iff_not]
  rintro (h' | ⟨he', h' | ⟨hd', h'⟩⟩) <;> linarith

/-! ## Lemmas: unordered pair matching -/

theorem sameUPair_eq_true_iff (p q : String × String) :
    sameUPair p q = true ↔ p = q ∨ (p.1 = q.2 ∧ p.2 = q.1) := by
  simp [sameUPair, Bool.or_eq_true, Bool.and_eq_true, beq_iff_eq]

theorem sameUPair_symm (p q : String × String) :
    sameUPair p q = sameUPair q p := by
  rw [Bool.eq_iff_iff, sameUPair_eq_true_iff, sameUPair_eq_true_iff]
  constructor
  · rintro (rfl | ⟨h1, h2⟩)
    · exact Or.inl rfl
    · exact Or.inr ⟨h2.symm, h1.symm⟩
  · rintro (rfl | ⟨h1, h2⟩)
    · exact Or.inl rfl
    · exact Or.inr ⟨h2.symm, h1.symm⟩

theorem sameUPair_trans (p q r : String × String) :
    sameUPair p q = true → sameUPair q r = true → sameUPair p r = true := by
  rw [sameUPair_eq_true_iff, sameUPair_eq_true_iff, sameUPair_eq_true_iff]
  rintro (rfl | ⟨h1, h2⟩) (rfl | ⟨g1, g2⟩)
  · exact Or.inl rfl
  · exact Or.inr ⟨g1, g2⟩
  · exact Or.inr ⟨h1, h2⟩
  · refine Or.inl ?_
    have hp1 : p.1 = r.1 := by rw [h1, g2]
    have hp2 : p.2 = r.2 := by rw [h2, g1]
    exact Prod.ext hp1 hp2

theorem sameUPair_swap (u v x y : String) :
    sameUPair (u, v) (x, y) = sameUPair (v, u) (x, y) := by
  rw [Bool.eq_iff_iff, sameUPair_eq_true_iff, sameUPair_eq_true_iff]
  simp only [Prod.mk.injEq]
  constructor
  · rintro (⟨h1, h2⟩ | ⟨h1, h2⟩)
    · exact Or.inr ⟨h2, h1⟩
    · exact Or.inl ⟨h2, h1⟩
  · rintro (⟨h1, h2⟩ | ⟨h1, h2⟩)
    · exact Or.inr ⟨h2, h1⟩
    · exact Or.inl ⟨h2, h1⟩

/-! ## Lemmas: weight sums over edge-entry lists -/

theorem wsum_nil (x y : String) : wsum [] x y = 0 := rfl

theorem wsum_cons (e : (String × String) × Nat) (es : List ((String × String) × Nat))
    (x y : String) :
    wsum (e :: es) x y
      = (if sameUPair e.1 (x, y) = true then e.2 else 0) + wsum es x y := by
  by_cases h : sameUPair e.1 (x, y) = true
  · simp [wsum, List.filter_cons, h]
  · simp [wsum, List.filter_cons, Bool.eq_false_iff.mpr h]

theorem wsum_append (es1 es2 : List ((String × String) × Nat)) (x y : String) :
    wsum (es1 ++ es2) x y = wsum es1 x y + wsum es2 x y := by
  simp [wsum, List.filter_append]

theorem wsum_eq_zero (es : List ((String × String) × Nat)) (x y : String)
    (h : ∀ e ∈ es, sameUPair e.1 (x, y) = false) : wsum es x y = 0 := by
  induction es with
  | nil => rfl
  | cons e t ih =>
    rw [wsum_cons, h e (List.mem_cons_self e t), ih (fun e' he' => h e' (List.mem_cons_of_mem e he'))]
    simp

/-! ## Lemmas: basic graph operations -/

theorem addNode_edges (G : Graph) (u : String) : (G.addNode u).edges = G.edges := by
  unfold Graph.addNode
  split <;> rfl

theorem mem_addNode_self (G : Graph) (u : String) : u ∈ (G.addNode u).nodes := by
  unfold Graph.addNode
  split
  · assumption
  · simp

theorem mem_addNode_of (G : Graph) (u x : String) (h : x ∈ G.nodes) :
    x ∈ (G.addNode u).nodes := by
  unfold Graph.addNode
  split
  · exact h
  · simp [h]

theorem addAllNodes_edges (G : Graph) (us : List String) :
    (addAllNodes G us).edges = G.edges := by
  induction us generalizing G with
  | nil => rfl
  | cons a t ih =>
    show (addAllNodes (G.addNode a) t).edges = G.edges
    rw [ih, addNode_edges]

theorem mem_addAllNodes_of (G : Graph) (us : List String) (x : String)
    (h : x ∈ G.nodes) : x ∈ (addAllNodes G us).nodes := by
  induction us generalizing G with
  | nil => exact h
  | cons a t ih =>
    exact ih (G.addNode a) (mem_addNode_of G a x h)

theorem mem_addAllNodes_of_mem (G : Graph) (us : List String) (u : String)
    (h : u ∈ us) : u ∈ (addAllNodes G us).nodes := by
  induction us generalizing G with
  | nil => cases h
  | cons a t ih =>
    rcases List.mem_cons.mp h with rfl | h
    · exact mem_addAllNodes_of (G.addNode u) t u (mem_addNode_self G u)
    · exact ih (G.addNode a) h

theorem hasEdge_iff (G : Graph) (u v : String) :
    G.hasEdge u v = true ↔ ∃ e ∈ G.edges, sameUPair e.1 (u, v) = true := by
  simp [Graph.hasEdge, List.any_eq_true]

/-! ## Lemmas: the incr step -/

theorem wsum_bump_of_same (es : List ((String × String) × Nat)) (u v : String) (w : Nat)
    (x y : String) (hsame : sameUPair (u, v) (x, y) = true)
    (hpw : es.Pairwise (fun e1 e2 => sameUPair e1.1 e2.1 = false))
    (hany : ∃ e ∈ es, sameUPair e.1 (u, v) = true) :
    wsum (es.map (fun e => if sameUPair e.1 (u, v) then (e.1, e.2 + w) else e)) x y
      = wsum es x y + w := by
  induction es with
  | nil => obtain ⟨e, he, _⟩ := hany; cases he
  | cons e t ih =>
    rcases List.pairwise_cons.mp hpw with ⟨he, ht⟩
    by_cases hm : sameUPair e.1 (u, v) = true
    · have hmx : sameUPair e.1 (x, y) = true := sameUPair_trans _ _ _ hm hsame
      have ht0 : ∀ e' ∈ t, (if sameUPair e'.1 (u, v) = true then (e'.1, e'.2 + w) else e') = e' := by
        intro e' he'
        rw [if_neg]
        intro hc
        have h1 : sameUPair (u, v) e'.1 = true := by rw [sameUPair_symm]; exact hc
        have h2 : sameUPair e.1 e'.1 = true := sameUPair_trans _ _ _ hm h1
        rw [he e' he'] at h2
        exact absurd h2 (by simp)
      have hmapt : t.map (fun e' => if sameUPair e'.1 (u, v) then (e'.1, e'.2 + w) else e') = t := by
        rw [List.map_congr_left ht0]
        simp
      rw [List.map_cons, hmapt, if_pos hm, wsum_cons, wsum_cons, if_pos hmx, if_pos hmx]
      omega
    · have hany' : ∃ e' ∈ t, sameUPair e'.1 (u, v) = true := by
        obtain ⟨e', he', hme'⟩ := hany
        rcases List.mem_cons.mp he' with rfl | he'
        · exact absurd hme' hm
        · exact ⟨e', he', hme'⟩
      rw [List.map_cons, if_neg hm, wsum_cons, wsum_cons, ih ht hany']
      omega

theorem wsum_bump_of_not (es : List ((String × String) × Nat)) (u v : String) (w : Nat)
    (x y : String) (hsame : sameUPair (u, v) (x, y) = false) :
    wsum (es.map (fun e => if sameUPair e.1 (u, v) then (e.1, e.2 + w) else e)) x y
      = wsum es x y := by
  induction es with
  | nil => rfl
  | cons e t ih =>
    rw [List.map_cons, wsum_cons, wsum_cons, ih]
    congr 1
    by_cases hm : sameUPair e.1 (u, v) = true
    · rw [if_pos hm]
      have hx : sameUPair e.1 (x, y) = false := by
        by_contra hc
        have hc' : sameUPair e.1 (x, y) = true := by
          rcases Bool.eq_false_or_eq_true (sameUPair e.1 (x, y)) with h | h
          · exact h
          · exact absurd h hc
        have h1 : sameUPair (u, v) e.1 = true := by rw [sameUPair_symm]; exact hm
        have h2 : sameUPair (u, v) (x, y) = true := sameUPair_trans _ _ _ h1 hc'
        rw [hsame] at h2
        exact absurd h2 (by simp)
      simp [hx]
    · rw [if_neg hm]

theorem weight_incr (G : Graph) (u v : String) (w : Nat) (x y : String) (hOk : G.Ok) :
    (G.incr u v w).weight x y
      = G.weight x y + (if sameUPair (u, v) (x, y) = true then w else 0) := by
  unfold Graph.incr
  by_cases hE : G.hasEdge u v = true
  · rw [if_pos hE]
    show wsum (G.edges.map _) x y = _
    by_cases hsame : sameUPair (u, v) (x, y) = true
    · rw [wsum_bump_of_same G.edges u v w x y hsame hOk ((hasEdge_iff G u v).mp hE),
        if_pos hsame]
      rfl
    · rw [wsum_bump_of_not G.edges u v w x y (Bool.eq_false_iff.mpr hsame), if_neg hsame]
      rw [Nat.add_zero]
      rfl
  · rw [if_neg hE]
    show wsum (G.edges ++ [((u, v), w)]) x y = _
    rw [wsum_append, wsum_cons, wsum_nil, Nat.add_zero]
    rfl

theorem ok_incr (G : Graph) (u v : String) (w : Nat) (hOk : G.Ok) :
    (G.incr u v w).Ok := by
  unfold Graph.incr
  by_cases hE : G.hasEdge u v = true
  · rw [if_pos hE]
    show ((G.edges.map _).Pairwise _)
    rw [List.pairwise_map]
    refine hOk.imp ?_
    intro e1 e2 h
    have h1 : (if sameUPair e1.1 (u, v) = true then (e1.1, e1.2 + w) else e1).1 = e1.1 := by
      split <;> rfl
    have h2 : (if sameUPair e2.1 (u, v) = true then (e2.1, e2.2 + w) else e2).1 = e2.1 := by
      split <;> rfl
    rw [h1, h2]
    exact h
  · rw [if_neg hE]
    show ((G.edges ++ [((u, v), w)]).Pairwise _)
    rw [List.pairwise_append]
    refine ⟨hOk, by simp, ?_⟩
    intro e he e' he'
    rcases List.mem_singleton.mp he' with rfl
    have : ∀ e ∈ G.edges, sameUPair e.1 (u, v) = false := by
      intro e2 he2
      rcases Bool.eq_false_or_eq_true (sameUPair e2.1 (u, v)) with h | h
      · exact absurd ((hasEdge_iff G u v).mpr ⟨e2, he2, h⟩) hE
      · exact h
    exact this e he

theorem mem_nodes_incr (G : Graph) (u v : String) (w : Nat) (x : String)
    (h : x ∈ G.nodes) : x ∈ (G.incr u v w).nodes := by
  unfold Graph.incr
  split
  · exact h
  · exact mem_addNode_of _ v x (mem_addNode_of G u x h)

/-! ## Lemmas: matchCount -/

theorem matchCount_nil (x y : String) : matchCount [] x y = 0 := rfl

theorem matchCount_cons (p : String × String) (ps : List (String × String)) (x y : String) :
    matchCount (p :: ps) x y
      = (if sameUPair p (x, y) = true then 1 else 0) + matchCount ps x y := by
  by_cases h : sameUPair p (x, y) = true
  · simp [matchCount, List.filter_cons, h, Nat.add_comm]
  · simp [matchCount, List.filter_cons, Bool.eq_false_iff.mpr h]

theorem matchCount_append (ps1 ps2 : List (String × String)) (x y : String) :
    matchCount (ps1 ++ ps2) x y = matchCount ps1 x y + matchCount ps2 x y := by
  simp [matchCount, List.filter_append]

/-! ## Lemmas: the reply pass -/

theorem ok_applyReplyPass (items : List ((String × String) × Nat)) (m : Int) :
    ∀ G : Graph, G.Ok → (applyReplyPass G items m).Ok := by
  induction items with
  | nil => intro G hOk; exact hOk
  | cons it t ih =>
    intro G hOk
    show (applyReplyPass (if m ≤ (it.2 : Int) then G.incr it.1.1 it.1.2 it.2 else G) t m).Ok
    by_cases hg : m ≤ (it.2 : Int)
    · rw [if_pos hg]
      exact ih _ (ok_incr G it.1.1 it.1.2 it.2 hOk)
    · rw [if_neg hg]
      exact ih G hOk

theorem weight_applyReplyPass (items : List ((String × String) × Nat)) (m : Int)
    (x y : String) :
    ∀ G : Graph, G.Ok →
      (applyReplyPass G items m).weight x y
        = G.weight x y + wsum (items.filter (fun it => decide (m ≤ (it.2 : Int)))) x y := by
  induction items with
  | nil => intro G _; simp [applyReplyPass, wsum]
  | cons it t ih =>
    intro G hOk
    show (applyReplyPass (if m ≤ (it.2 : Int) then G.incr it.1.1 it.1.2 it.2 else G) t m).weight x y = _
    by_cases hg : m ≤ (it.2 : Int)
    · rw [if_pos hg, ih _ (ok_incr G it.1.1 it.1.2 it.2 hOk),
        weight_incr G it.1.1 it.1.2 it.2 x y hOk]
      have hfilter : List.filter (fun it => decide (m ≤ (it.2 : Int))) (it :: t)
          = it :: List.filter (fun it => decide (m ≤ (it.2 : Int))) t := by
        rw [List.filter_cons, if_pos (by simpa using hg)]
      rw [hfilter, wsum_cons]
      simp only [Prod.mk.eta]
      omega
    · rw [if_neg hg, ih G hOk, List.filter_cons,
        if_neg (by simpa using hg)]

/-! ## Lemmas: the co-comment pass -/

theorem ok_foldPairs (ps : List (String × String)) :
    ∀ G : Graph, G.Ok →
      (ps.foldl (fun g p => if p.1 == p.2 then g else g.incr p.1 p.2 1) G).Ok := by
  induction ps with
  | nil => intro G hOk; exact hOk
  | cons p t ih =>
    intro G hOk
    show (t.foldl _ (if p.1 == p.2 then G else G.incr p.1 p.2 1)).Ok
    by_cases hp : (p.1 == p.2) = true
    · rw [if_pos hp]; exact ih G hOk
    · rw [if_neg hp]; exact ih _ (ok_incr G p.1 p.2 1 hOk)

theorem weight_foldPairs (ps : List (String × String)) (x y : String) :
    ∀ G : Graph, G.Ok →
      (ps.foldl (fun g p => if p.1 == p.2 then g else g.incr p.1 p.2 1) G).weight x y
        = G.weight x y + matchCount (ps.filter (fun p => !(p.1 == p.2))) x y := by
  induction ps with
  | nil => intro G _; simp [matchCount, wsum]
  | cons p t ih =>
    intro G hOk
    show (t.foldl _ (if p.1 == p.2 then G else G.incr p.1 p.2 1)).weight x y = _
    by_cases hp : (p.1 == p.2) = true
    · rw [if_pos hp, ih G hOk, List.filter_cons]
      have hb : (!(p.1 == p.2)) = false := by rw [hp]; rfl
      rw [hb, if_neg (by simp)]
    · rw [if_neg hp, ih _ (ok_incr G p.1 p.2 1 hOk),
        weight_incr G p.1 p.2 1 x y hOk, List.filter_cons]
      have hp' : (!(p.1 == p.2)) = true := by simp [Bool.eq_false_iff.mpr hp]
      rw [if_pos hp', matchCount_cons]
      simp only [Prod.mk.eta]
      omega

theorem ok_applyCoGroup (cs : List String) (G : Graph) (hOk : G.Ok) :
    (applyCoGroup G cs).Ok := by
  unfold applyCoGroup
  by_cases h2 : cs.length < 2
  · rw [if_pos h2]; exact hOk
  · rw [if_neg h2]; exact ok_foldPairs (pairs2 cs) G hOk

theorem weight_applyCoGroup (cs : List String) (G : Graph) (hOk : G.Ok) (x y : String) :
    (applyCoGroup G cs).weight x y = G.weight x y + matchCount (coPairsOfList cs) x y := by
  unfold applyCoGroup coPairsOfList
  by_cases h2 : cs.length < 2
  · rw [if_pos h2, if_pos h2, matchCount_nil]
    omega
  · rw [if_neg h2, if_neg h2]
    exact weight_foldPairs (pairs2 cs) x y G hOk

theorem ok_applyCoPass (comments : List CommentRow) :
    ∀ G : Graph, G.Ok → (applyCoPass G comments).Ok := by
  unfold applyCoPass
  generalize groupIds comments = gids
  induction gids with
  | nil => intro G hOk; exact hOk
  | cons pid t ih =>
    intro G hOk
    exact ih _ (ok_applyCoGroup (groupCommenters comments pid) G hOk)

theorem weight_applyCoPass (comments : List CommentRow) (x y : String) :
    ∀ G : Graph, G.Ok →
      (applyCoPass G comments).weight x y
        = G.weight x y + matchCount (coPairs comments) x y := by
  unfold applyCoPass coPairs
  generalize groupIds comments = gids
  induction gids with
  | nil => intro G _; simp [matchCount]
  | cons pid t ih =>
    intro G hOk
    show (t.foldl _ (applyCoGroup G (groupCommenters comments pid))).weight x y = _
    rw [ih _ (ok_applyCoGroup (groupCommenters comments pid) G hOk),
      weight_applyCoGroup (groupCommenters comments pid) G hOk x y,
      List.flatMap_cons, matchCount_append]
    show _ = G.weight x y + (matchCount (coPairsOfList (groupCommenters comments pid)) x y + _)
    omega

/-! ## Lemmas: node preservation through the passes -/

theorem mem_nodes_applyReplyPass (items : List ((String × String) × Nat)) (m : Int) :
    ∀ (G : Graph) (x : String), x ∈ G.nodes → x ∈ (applyReplyPass G items m).nodes := by
  induction items with
  | nil => intro G x h; exact h
  | cons it t ih =>
    intro G x h
    show x ∈ (applyReplyPass (if m ≤ (it.2 : Int) then G.incr it.1.1 it.1.2 it.2 else G) t m).nodes
    by_cases hg : m ≤ (it.2 : Int)
    · rw [if_pos hg]
      exact ih _ x (mem_nodes_incr G it.1.1 it.1.2 it.2 x h)
    · rw [if_neg hg]
      exact ih G x h

theorem mem_nodes_foldPairs (ps : List (String × String)) :
    ∀ (G : Graph) (x : String), x ∈ G.nodes →
      x ∈ (ps.foldl (fun g p => if p.1 == p.2 then g else g.incr p.1 p.2 1) G).nodes := by
  induction ps with
  | nil => intro G x h; exact h
  | cons p t ih =>
    intro G x h
    show x ∈ (t.foldl _ (if p.1 == p.2 then G else G.incr p.1 p.2 1)).nodes
    by_cases hp : (p.1 == p.2) = true
    · rw [if_pos hp]; exact ih G x h
    · rw [if_neg hp]; exact ih _ x (mem_nodes_incr G p.1 p.2 1 x h)

theorem mem_nodes_applyCoGroup (cs : List String) (G : Graph) (x : String)
    (h : x ∈ G.nodes) : x ∈ (applyCoGroup G cs).nodes := by
  unfold applyCoGroup
  by_cases h2 : cs.length < 2
  · rw [if_pos h2]; exact h
  · rw [if_neg h2]; exact mem_nodes_foldPairs (pairs2 cs) G x h

theorem mem_nodes_applyCoPass (comments : List CommentRow) :
    ∀ (G : Graph) (x : String), x ∈ G.nodes → x ∈ (applyCoPass G comments).nodes := by
  unfold applyCoPass
  generalize groupIds comments = gids
  induction gids with
  | nil => intro G x h; exact h
  | cons pid t ih =>
    intro G x h
    exact ih _ x (mem_nodes_applyCoGroup (groupCommenters comments pid) G x h)

theorem mem_nodes_build (posts : List PostRow) (comments : List CommentRow) (m : Int)
    (u : String) (h : u ∈ allUsers posts comments) :
    u ∈ (build_interaction_graph posts comments m).nodes := by
  unfold build_interaction_graph
  apply mem_nodes_applyCoPass
  apply mem_nodes_applyReplyPass
  exact mem_addAllNodes_of_mem Graph.empty (allUsers posts comments) u h

/-! ## Lemmas: the weight of the built graph -/

theorem ok_addAllNodes_empty (us : List String) : (addAllNodes Graph.empty us).Ok := by
  unfold Graph.Ok
  rw [addAllNodes_edges]
  exact List.Pairwise.nil

theorem weight_build_raw (posts : List PostRow) (comments : List CommentRow) (m : Int)
    (x y : String) :
    (build_interaction_graph posts comments m).weight x y
      = wsum ((counterItems (replyPairs posts comments)).filter
          (fun it => decide (m ≤ (it.2 : Int)))) x y
        + matchCount (coPairs comments) x y := by
  unfold build_interaction_graph
  rw [weight_applyCoPass comments x y _
    (ok_applyReplyPass _ m _ (ok_addAllNodes_empty _)),
    weight_applyReplyPass _ m x y _ (ok_addAllNodes_empty _)]
  have h0 : (addAllNodes Graph.empty (allUsers posts comments)).weight x y = 0 := by
    show wsum (addAllNodes Graph.empty (allUsers posts comments)).edges x y = 0
    rw [addAllNodes_edges]
    rfl
  rw [h0]
  omega

/-! ## Lemmas: from item sums to pair multiplicities -/

theorem matchCount_eq_counts (ps : List (String × String)) (x y : String) (hxy : x ≠ y) :
    matchCount ps x y = ps.count (x, y) + ps.count (y, x) := by
  induction ps with
  | nil => rfl
  | cons p t ih =>
    rw [matchCount_cons, ih, List.count_cons, List.count_cons]
    have hne : (x, y) ≠ (y, x) := by
      intro h
      exact hxy (congrArg Prod.fst h)
    by_cases h1 : p = (x, y)
    · subst h1
      have hs : sameUPair (x, y) ((x, y) : String × String) = true := by
        rw [sameUPair_eq_true_iff]
        exact Or.inl rfl
      simp [hs, hne, beq_iff_eq]
      omega
    · by_cases h2 : p = (y, x)
      · subst h2
        have hs : sameUPair (y, x) ((x, y) : String × String) = true := by
          rw [sameUPair_eq_true_iff]
          exact Or.inr ⟨rfl, rfl⟩
        have hne' : ((y, x) : String × String) ≠ (x, y) := fun h => hne h.symm
        simp [hs, hne', beq_iff_eq]
        omega
      · have hs : sameUPair p ((x, y) : String × String) = false := by
          rcases Bool.eq_false_or_eq_true (sameUPair p (x, y)) with h | h
          · rcases (sameUPair_eq_true_iff p (x, y)).mp h with rfl | ⟨ha, hb⟩
            · exact absurd rfl h1
            · have : p = (y, x) := Prod.ext (by simpa using ha) (by simpa using hb)
              exact absurd this h2
          · exact h
        simp [hs, beq_iff_eq, h1, h2]

theorem wsum_keyed (keys : List (String × String)) (f : (String × String) → Nat)
    (gate : Nat → Bool) (x y : String) (hxy : x ≠ y) (hnd : keys.Nodup) :
    wsum ((keys.map (fun k => (k, f k))).filter (fun it => gate it.2)) x y
      = (if (x, y) ∈ keys ∧ gate (f (x, y)) = true then f (x, y) else 0)
        + (if (y, x) ∈ keys ∧ gate (f (y, x)) = true then f (y, x) else 0) := by
  have hne : ((x, y) : String × String) ≠ (y, x) := by
    intro h
    exact hxy (congrArg Prod.fst h)
  induction keys with
  | nil => simp [wsum]
  | cons k t ih =>
    rcases List.nodup_cons.mp hnd with ⟨hk, ht⟩
    have iht := ih ht
    rw [List.map_cons, List.filter_cons]
    by_cases hg : gate (f k) = true
    · rw [if_pos hg, wsum_cons, iht]
      by_cases h1 : k = (x, y)
      · subst h1
        have hs : sameUPair ((x, y) : String × String) (x, y) = true := by
          rw [sameUPair_eq_true_iff]; exact Or.inl rfl
        rw [if_pos hs]
        have hmem1 : ¬ (((x, y) : String × String) ∈ t ∧ gate (f (x, y)) = true) := by
          rintro ⟨hm, _⟩; exact hk hm
        have hmem2 : (((y, x) : String × String) ∈ (x, y) :: t ∧ gate (f (y, x)) = true)
            ↔ (((y, x) : String × String) ∈ t ∧ gate (f (y, x)) = true) := by
          constructor
          · rintro ⟨hm, hg'⟩
            rcases List.mem_cons.mp hm with h | h
            · exact absurd h.symm hne
            · exact ⟨h, hg'⟩
          · rintro ⟨hm, hg'⟩
            exact ⟨List.mem_cons_of_mem _ hm, hg'⟩
        have hpos : ((x, y) : String × String) ∈ (x, y) :: t ∧ gate (f (x, y)) = true :=
          ⟨List.mem_cons_self _ _, hg⟩
        rw [if_neg hmem1, if_pos hpos, if_congr hmem2 rfl rfl]
        omega
      · by_cases h2 : k = (y, x)
        · subst h2
          have hs : sameUPair ((y, x) : String × String) (x, y) = true := by
            rw [sameUPair_eq_true_iff]; exact Or.inr ⟨rfl, rfl⟩
          rw [if_pos hs]
          have hmem1 : (((x, y) : String × String) ∈ (y, x) :: t ∧ gate (f (x, y)) = true)
              ↔ (((x, y) : String × String) ∈ t ∧ gate (f (x, y)) = true) := by
            constructor
            · rintro ⟨hm, hg'⟩
              rcases List.mem_cons.mp hm with h | h
              · exact absurd h hne
              · exact ⟨h, hg'⟩
            · rintro ⟨hm, hg'⟩
              exact ⟨List.mem_cons_of_mem _ hm, hg'⟩
          have hmem2 : ¬ (((y, x) : String × String) ∈ t ∧ gate (f (y, x)) = true) := by
            rintro ⟨hm, _⟩; exact hk hm
          have hpos : ((y, x) : String × String) ∈ (y, x) :: t ∧ gate (f (y, x)) = true :=
            ⟨List.mem_cons_self _ _, hg⟩
          rw [if_congr hmem1 rfl rfl, if_neg hmem2, if_pos hpos]
          omega
        · have hs : sameUPair k ((x, y) : String × String) = false := by
            rcases Bool.eq_false_or_eq_true (sameUPair k (x, y)) with h | h
            · rcases (sameUPair_eq_true_iff k (x, y)).mp h with rfl | ⟨ha, hb⟩
              · exact absurd rfl h1
              · exact absurd (Prod.ext (by simpa using ha) (by simpa using hb)) h2
            · exact h
          have hmem1 : (((x, y) : String × String) ∈ k :: t ∧ gate (f (x, y)) = true)
              ↔ (((x, y) : String × String) ∈ t ∧ gate (f (x, y)) = true) := by
            constructor
            · rintro ⟨hm, hg'⟩
              rcases List.mem_cons.mp hm with h | h
              · exact absurd h.symm h1
              · exact ⟨h, hg'⟩
            · rintro ⟨hm, hg'⟩
              exact ⟨List.mem_cons_of_mem _ hm, hg'⟩
          have hmem2 : (((y, x) : String × String) ∈ k :: t ∧ gate (f (y, x)) = true)
              ↔ (((y, x) : String × String) ∈ t ∧ gate (f (y, x)) = true) := by
            constructor
            · rintro ⟨hm, hg'⟩
              rcases List.mem_cons.mp hm with h | h
              · exact absurd h.symm h2
              · exact ⟨h, hg'⟩
            · rintro ⟨hm, hg'⟩
              exact ⟨List.mem_cons_of_mem _ hm, hg'⟩
          have hhead : (if sameUPair ((k, f k) : (String × String) × Nat).1 (x, y) = true
              then ((k, f k) : (String × String) × Nat).2 else 0) = 0 := by
            simp [hs]
          rw [hhead, if_congr hmem1 rfl rfl, if_congr hmem2 rfl rfl]
          omega
    · rw [if_neg hg, iht]
      by_cases h1 : k = (x, y)
      · subst h1
        have hmem1a : ¬ (((x, y) : String × String) ∈ (x, y) :: t ∧ gate (f (x, y)) = true) := by
          rintro ⟨_, hg'⟩; exact hg hg'
        have hmem1b : ¬ (((x, y) : String × String) ∈ t ∧ gate (f (x, y)) = true) := by
          rintro ⟨_, hg'⟩; exact hg hg'
        have hmem2 : (((y, x) : String × String) ∈ (x, y) :: t ∧ gate (f (y, x)) = true)
            ↔ (((y, x) : String × String) ∈ t ∧ gate (f (y, x)) = true) := by
          constructor
          · rintro ⟨hm, hg'⟩
            rcases List.mem_cons.mp hm with h | h
            · exact absurd h.symm hne
            · exact ⟨h, hg'⟩
          · rintro ⟨hm, hg'⟩
            exact ⟨List.mem_cons_of_mem _ hm, hg'⟩
        rw [if_neg hmem1a, if_neg hmem1b, if_congr hmem2 rfl rfl]
      · by_cases h2 : k = (y, x)
        · subst h2
          have hmem1 : (((x, y) : String × String) ∈ (y, x) :: t ∧ gate (f (x, y)) = true)
              ↔ (((x, y) : String × String) ∈ t ∧ gate (f (x, y)) = true) := by
            constructor
            · rintro ⟨hm, hg'⟩
              rcases List.mem_cons.mp hm with h | h
              · exact absurd h hne
              · exact ⟨h, hg'⟩
            · rintro ⟨hm, hg'⟩
              exact ⟨List.mem_cons_of_mem _ hm, hg'⟩
          have hmem2a : ¬ (((y, x) : String × String) ∈ (y, x) :: t ∧ gate (f (y, x)) = true) := by
            rintro ⟨_, hg'⟩; exact hg hg'
          have hmem2b : ¬ (((y, x) : String × String) ∈ t ∧ gate (f (y, x)) = true) := by
            rintro ⟨_, hg'⟩; exact hg hg'
          rw [if_congr hmem1 rfl rfl, if_neg hmem2a, if_neg hmem2b]
        · have hmem1 : (((x, y) : String × String) ∈ k :: t ∧ gate (f (x, y)) = true)
              ↔ (((x, y) : String × String) ∈ t ∧ gate (f (x, y)) = true) := by
            constructor
            · rintro ⟨hm, hg'⟩
              rcases List.mem_cons.mp hm with h | h
              · exact absurd h.symm h1
              · exact ⟨h, hg'⟩
            · rintro ⟨hm, hg'⟩
              exact ⟨List.mem_cons_of_mem _ hm, hg'⟩
          have hmem2 : (((y, x) : String × String) ∈ k :: t ∧ gate (f (y, x)) = true)
              ↔ (((y, x) : String × String) ∈ t ∧ gate (f (y, x)) = true) := by
            constructor
            · rintro ⟨hm, hg'⟩
              rcases List.mem_cons.mp hm with h | h
              · exact absurd h.symm h2
              · exact ⟨h, hg'⟩
            · rintro ⟨hm, hg'⟩
              exact ⟨List.mem_cons_of_mem _ hm, hg'⟩
          rw [if_congr hmem1 rfl rfl, if_congr hmem2 rfl rfl]

theorem wsum_counter_gated (rp : List (String × String)) (m : Int) (x y : String)
    (hxy : x ≠ y) :
    wsum ((counterItems rp).filter (fun it => decide (m ≤ (it.2 : Int)))) x y
      = gatedCount m (rp.count (x, y)) + gatedCount m (rp.count (y, x)) := by
  unfold counterItems
  rw [wsum_keyed (uniqueFirst rp) (fun p => rp.count p)
    (fun n => decide (m ≤ (n : Int))) x y hxy (nodup_uniqueFirst rp)]
  have conv : ∀ p : String × String,
      (if p ∈ uniqueFirst rp ∧ decide (m ≤ ((rp.count p : Nat) : Int)) = true
        then rp.count p else 0) = gatedCount m (rp.count p) := by
    intro p
    unfold gatedCount
    by_cases hm : p ∈ uniqueFirst rp
    · by_cases hg : m ≤ ((rp.count p : Nat) : Int)
      · rw [if_pos ⟨hm, by simpa using hg⟩, if_pos hg]
      · rw [if_neg (by rintro ⟨_, h⟩; exact hg (by simpa using h)), if_neg hg]
    · have h0 : rp.count p = 0 := by
        rw [List.count_eq_zero]
        intro hmem
        exact hm ((mem_uniqueFirst rp p).mpr hmem)
      rw [if_neg (by rintro ⟨h, _⟩; exact hm h), h0]
      split <;> rfl
  rw [conv (x, y), conv (y, x)]

theorem weight_build_char (posts : List PostRow) (comments : List CommentRow) (m : Int)
    (x y : String) (hxy : x ≠ y) :
    (build_interaction_graph posts comments m).weight x y
      = gatedCount m (replyCount posts comments x y)
        + gatedCount m (replyCount posts comments y x)
        + coContribution comments x y := by
  rw [weight_build_raw posts comments m x y,
    wsum_counter_gated (replyPairs posts comments) m x y hxy,
    matchCount_eq_counts (coPairs comments) x y hxy]
  unfold replyCount coContribution
  omega

/-! ## Lemmas: reply pairs -/

theorem replyPairsOfComment_snd (posts : List PostRow) (c : CommentRow) :
    ∀ p ∈ replyPairsOfComment posts c,
      p.2 = c.comment_author ∧ c.comment_author ≠ "" ∧ c.comment_author ≠ "[deleted]" := by
  intro p hp
  unfold replyPairsOfComment at hp
  rcases List.mem_filterMap.mp hp with ⟨oa, _, hoa⟩
  by_cases hskip : c.comment_author = "" ∨ c.comment_author = "[deleted]"
  · rw [if_pos hskip] at hoa
    cases hoa
  · rw [if_neg hskip] at hoa
    push_neg at hskip
    by_cases heq : c.comment_author = oa.getD "[deleted]"
    · rw [if_pos heq] at hoa
      cases hoa
    · rw [if_neg heq] at hoa
      cases hoa
      exact ⟨rfl, hskip.1, hskip.2⟩

theorem replyPairs_snd (posts : List PostRow) (comments : List CommentRow) :
    ∀ p ∈ replyPairs posts comments, p.2 ≠ "" ∧ p.2 ≠ "[deleted]" := by
  intro p hp
  unfold replyPairs at hp
  rcases List.mem_flatMap.mp hp with ⟨c, _, hpc⟩
  obtain ⟨heq, h1, h2⟩ := replyPairsOfComment_snd posts c p hpc
  rw [heq]
  exact ⟨h1, h2⟩

theorem replyPairsOfComment_skip (posts : List PostRow) (c : CommentRow)
    (h : c.comment_author = "" ∨ c.comment_author = "[deleted]") :
    replyPairsOfComment posts c = [] := by
  unfold replyPairsOfComment
  apply List.filterMap_eq_nil_iff.mpr
  intro oa _
  rw [if_pos h]

theorem replyPairsOfComment_unmatched (posts : List PostRow) (c : CommentRow)
    (hnomatch : ∀ p ∈ posts, ¬ p.post_id = c.post_id)
    (h1 : c.comment_author ≠ "") (h2 : c.comment_author ≠ "[deleted]") :
    replyPairsOfComment posts c = [("[deleted]", c.comment_author)] := by
  unfold replyPairsOfComment mergedAuthors
  have hfil : posts.filter (fun p => p.post_id = c.post_id) = [] := by
    rw [List.filter_eq_nil_iff]
    intro p hp
    simpa using hnomatch p hp
  rw [hfil]
  rw [if_pos (show (([] : List PostRow).isEmpty = true) from rfl)]
  rw [List.filterMap_cons, List.filterMap_nil]
  rw [if_neg (by rintro (h | h); exact h1 h; exact h2 h)]
  rw [if_neg (by intro h; exact h2 (by simpa using h))]
  rfl

theorem filterMapReply_all_kept (author : String) (las : List (Option String))
    (h1 : author ≠ "") (h2 : author ≠ "[deleted]")
    (hne : ∀ oa ∈ las, ¬ author = oa.getD "[deleted]") :
    (las.filterMap (fun oa =>
      if author = "" ∨ author = "[deleted]" then none
      else if author = oa.getD "[deleted]" then none
      else some (oa.getD "[deleted]", author)))
      = las.map (fun oa => (oa.getD "[deleted]", author)) := by
  induction las with
  | nil => rfl
  | cons oa t ih =>
    rw [List.filterMap_cons, List.map_cons]
    rw [if_neg (by rintro (h | h); exact h1 h; exact h2 h)]
    rw [if_neg (hne oa (List.mem_cons_self _ _))]
    rw [ih (fun oa' hoa' => hne oa' (List.mem_cons_of_mem _ hoa'))]

theorem replyPairsOfComment_matched (posts : List PostRow) (c : CommentRow)
    (h1 : c.comment_author ≠ "") (h2 : c.comment_author ≠ "[deleted]")
    (hne : ∀ p ∈ posts.filter (fun p => p.post_id = c.post_id),
      ¬ c.comment_author = p.post_author)
    (hnonempty : (posts.filter (fun p => p.post_id = c.post_id)).isEmpty = false) :
    replyPairsOfComment posts c
      = (posts.filter (fun p => p.post_id = c.post_id)).map
          (fun p => (p.post_author, c.comment_author)) := by
  unfold replyPairsOfComment mergedAuthors
  rw [if_neg (by rw [hnonempty]; exact Bool.false_ne_true)]
  rw [filterMapReply_all_kept c.comment_author _ h1 h2 ?hall]
  case hall =>
    intro oa hoa
    rcases List.mem_map.mp hoa with ⟨p, hp, rfl⟩
    simpa using hne p hp
  rw [List.map_map]
  exact List.map_congr_left (fun p _ => rfl)

/-! ## Lemmas: groups and co-participation counts -/

theorem mem_groupIds (comments : List CommentRow) (c : CommentRow) (hc : c ∈ comments) :
    c.post_id ∈ groupIds comments := by
  unfold groupIds
  rw [(sortS_perm _ _).mem_iff, mem_uniqueFirst]
  exact List.mem_map_of_mem _ hc

theorem mem_groupCommenters (comments : List CommentRow) (c : CommentRow) (pid : String)
    (hc : c ∈ comments) (hpid : c.post_id = pid) :
    c.comment_author ∈ groupCommenters comments pid := by
  unfold groupCommenters
  rw [mem_uniqueFirst]
  apply List.mem_map_of_mem
  rw [List.mem_filter]
  exact ⟨hc, by simpa using hpid⟩

theorem nodup_groupCommenters (comments : List CommentRow) (pid : String) :
    (groupCommenters comments pid).Nodup :=
  nodup_uniqueFirst _

theorem two_le_of_two_mem (l : List String) (u v : String)
    (hu : u ∈ l) (hv : v ∈ l) (huv : u ≠ v) : 2 ≤ l.length := by
  cases l with
  | nil => cases hu
  | cons a t =>
    cases t with
    | nil =>
      rw [List.mem_singleton] at hu hv
      exact absurd (hu.trans hv.symm) huv
    | cons b t2 => simp

theorem coPairsOfGroup_count (comments : List CommentRow) (pid u v : String) (huv : u ≠ v) :
    (coPairsOfGroup comments pid).count (u, v) + (coPairsOfGroup comments pid).count (v, u)
      = if u ∈ groupCommenters comments pid ∧ v ∈ groupCommenters comments pid
        then 1 else 0 := by
  unfold coPairsOfGroup
  by_cases h2 : 2 ≤ (groupCommenters comments pid).length
  · rw [coPairsOfList_eq_pairs2 _ (nodup_groupCommenters comments pid) h2]
    exact count_pairs2_nodup _ (nodup_groupCommenters comments pid) u v huv
  · unfold coPairsOfList
    rw [if_pos (by omega)]
    simp only [List.count_nil]
    rw [if_neg (by rintro ⟨hu, hv⟩; exact h2 (two_le_of_two_mem _ u v hu hv huv))]

theorem count_le_flatMap {α β : Type} [BEq β] (gids : List α) (f : α → List β)
    (pid : α) (h : pid ∈ gids) (p : β) :
    (f pid).count p ≤ (gids.flatMap f).count p := by
  induction gids with
  | nil => cases h
  | cons g t ih =>
    rw [List.flatMap_cons, List.count_append]
    rcases List.mem_cons.mp h with rfl | h
    · exact Nat.le_add_right _ _
    · exact le_trans (ih h) (Nat.le_add_left _ _)

theorem coContribution_ge_group (comments : List CommentRow) (pid u v : String)
    (hpid : pid ∈ groupIds comments) :
    (coPairsOfGroup comments pid).count (u, v) + (coPairsOfGroup comments pid).count (v, u)
      ≤ coContribution comments u v := by
  unfold coContribution coPairs
  have h1 := count_le_flatMap (groupIds comments) (coPairsOfGroup comments) pid hpid (u, v)
  have h2 := count_le_flatMap (groupIds comments) (coPairsOfGroup comments) pid hpid (v, u)
  omega

/-! ## Lemmas: user membership -/

theorem mem_allUsers_of_comment (posts : List PostRow) (comments : List CommentRow)
    (c : CommentRow) (hc : c ∈ comments) :
    c.comment_author ∈ allUsers posts comments := by
  unfold allUsers
  rw [mem_uniqueFirst, List.mem_append]
  exact Or.inr (List.mem_map_of_mem _ hc)

theorem mem_allUsers_of_post (posts : List PostRow) (comments : List CommentRow)
    (p : PostRow) (hp : p ∈ posts) :
    p.post_author ∈ allUsers posts comments := by
  unfold allUsers
  rw [mem_uniqueFirst, List.mem_append]
  exact Or.inl (List.mem_map_of_mem _ hp)

/-! ## Lemmas: the centrality table -/

theorem centRows_map_user (nodes : List String) (deg btw : String → ℚ)
    (prResult : Option (String → ℚ)) :
    (centRows nodes deg btw prResult).map (fun r => r.user) = nodes := by
  unfold centRows
  cases prResult <;>
    · rw [List.map_map]
      exact List.map_congr_left (fun n _ => rfl) |>.trans (List.map_id _)

theorem centRows_pagerank_none (nodes : List String) (deg btw : String → ℚ) :
    ∀ r ∈ centRows nodes deg btw none, r.pagerank = 0 := by
  intro r hr
  unfold centRows at hr
  rcases List.mem_map.mp hr with ⟨n, _, rfl⟩
  rfl

theorem centRows_length (nodes : List String) (deg btw : String → ℚ)
    (prResult : Option (String → ℚ)) :
    (centRows nodes deg btw prResult).length = nodes.length := by
  unfold centRows
  cases prResult <;> simp

/-! ## Claim C2 -/

/-- C2 is refuted on the code: when no column name matches the
comment-author heuristics, `build_interaction_graph` raises no error at
all; this closed computation shows a column list with no heuristically
resolvable author role for which the resolver silently returns the second
column `"body"` instead of failing. -/
theorem claim_C2_counterexample :
    (["post_id", "body"].all
      (fun c => !(commentAuthorHeuristics.contains (lowerString c)))) = true
    ∧ resolveCommentAuthorCol ["post_id", "body"] = some "body" := by
  constructor
  · decide
  · decide

/-- C2 (amended): if no column of the comment relation matches the
author-role naming heuristics, the normalizer does not fail: it silently
falls back to the second column when at least two columns exist, else to
the first (lines 92-94); for every nonempty column list some column is
selected, so no SchemaError is ever raised. -/
theorem claim_C2_amended (columns : List String)
    (hnone : (columns.all (fun c => !(commentAuthorHeuristics.contains (lowerString c)))) = true) :
    (1 < columns.length → resolveCommentAuthorCol columns = columns[1]?)
    ∧ (columns.length = 1 → resolveCommentAuthorCol columns = columns[0]?)
    ∧ (columns ≠ [] → (resolveCommentAuthorCol columns).isSome = true) := by
  have hfind : columns.find? (fun c => commentAuthorHeuristics.contains (lowerString c)) = none := by
    rw [List.find?_eq_none]
    intro x hx
    have hh := List.all_eq_true.mp hnone x hx
    simpa using hh
  have hres : resolveCommentAuthorCol columns
      = if 1 < columns.length then columns[1]? else columns[0]? := by
    unfold resolveCommentAuthorCol
    rw [hfind]
  refine ⟨fun hlen => ?_, fun h1 => ?_, fun hne => ?_⟩
  · rw [hres, if_pos hlen]
  · rw [hres, if_neg (by omega)]
  · rw [hres]
    by_cases hlen : 1 < columns.length
    · rw [if_pos hlen, List.getElem?_eq_getElem hlen]
      rfl
    · have hpos : 0 < columns.length := by
        rcases columns with _ | ⟨c, t⟩
        · exact absurd rfl hne
        · simp
      rw [if_neg hlen, List.getElem?_eq_getElem hpos]
      rfl

/-- Witness for the amended C2 theorem: both fallback branches at
concrete column lists with no heuristically resolvable author column. -/
theorem claim_C2_amended_witness :
    resolveCommentAuthorCol ["post_id", "body"] = ["post_id", "body"][1]?
    ∧ resolveCommentAuthorCol ["body"] = ["body"][0]? := by
  constructor
  · exact (claim_C2_amended ["post_id", "body"] (by decide)).1 (by decide)
  · exact (claim_C2_amended ["body"] (by decide)).2.1 (by decide)

/-! ## Claim C7 -/

/-- C7: if the PageRank library call fails (modelled as `prResult = none`,
the `except` branch of lines 160-163), every account receives PageRank 0
and the table is still complete (one row per node, a permutation of the
node list); and a zero-vertex graph yields the empty table rather than an
error (lines 154-155). -/
theorem claim_C7 (nodes : List String) (deg btw : String → ℚ) :
    ((compute_centralities nodes deg btw none).length = nodes.length
      ∧ ((compute_centralities nodes deg btw none).map (fun r => r.user)).Perm nodes
      ∧ ((compute_centralities nodes deg btw none).all
          (fun r => decide (r.pagerank = 0))) = true)
    ∧ (∀ (deg2 btw2 : String → ℚ) (prR : Option (String → ℚ)),
        compute_centralities [] deg2 btw2 prR = []) := by
  constructor
  · unfold compute_centralities
    by_cases h0 : nodes.length = 0
    · rw [if_pos h0]
      have hnil : nodes = [] := List.length_eq_zero.mp h0
      subst hnil
      exact ⟨rfl, List.Perm.refl _, rfl⟩
    · rw [if_neg h0]
      refine ⟨?_, ?_, ?_⟩
      · rw [(sortS_perm centLt _).length_eq, centRows_length]
      · have hp := (sortS_perm centLt (centRows nodes deg btw none)).map (fun r => r.user)
        rwa [centRows_map_user] at hp
      · rw [List.all_eq_true]
        intro r hr
        have hrm : r ∈ centRows nodes deg btw none :=
          (sortS_perm centLt _).mem_iff.mp hr
        exact decide_eq_true (centRows_pagerank_none nodes deg btw r hrm)
  · intro deg2 btw2 prR
    rfl

/-! ## Claim C8 -/

/-- C8 is refuted on the code: `DataFrame.head(-1)` returns all rows
except the last one, not the empty table the claim requires for negative
n; on a two-row table the selection at n = -1 keeps the first row. -/
theorem claim_C8_counterexample :
    save_top_influencers [⟨"u", 0, 0, 0⟩, ⟨"v", 0, 0, 0⟩] (-1) = [⟨"u", 0, 0, 0⟩]
    ∧ (-1 : Int) ≤ 0
    ∧ ([⟨"u", 0, 0, 0⟩] : List CentRow) ≠ [] := by
  refine ⟨by decide, by decide, by decide⟩

/-- C8 (amended): the top-N selection is `head(top_n)`: for n ≥ 0 it
returns the first n records (clamped to the list length, so n = 0 gives
the empty list); for negative n it returns all records except the last
|n| (empty only when |n| reaches the length), not the empty list. -/
theorem claim_C8_amended (l : List CentRow) (n : Int) :
    (0 ≤ n → save_top_influencers l n = l.take n.toNat
      ∧ (save_top_influencers l n).length = min n.toNat l.length)
    ∧ (n < 0 → save_top_influencers l n = l.take (l.length - n.natAbs)
      ∧ (save_top_influencers l n).length = l.length - n.natAbs) := by
  unfold save_top_influencers dfHead
  constructor
  · intro h
    rw [if_pos h]
    exact ⟨rfl, List.length_take _ _⟩
  · intro h
    rw [if_neg (by omega)]
    refine ⟨rfl, ?_⟩
    rw [List.length_take]
    omega

/-- Witness for the amended C8 theorem at concrete tables and both signs
of n. -/
theorem claim_C8_amended_witness :
    (save_top_influencers [⟨"u", 0, 0, 0⟩, ⟨"v", 0, 0, 0⟩] 1).length
        = min (Int.toNat 1) 2
    ∧ (save_top_influencers [⟨"u", 0, 0, 0⟩, ⟨"v", 0, 0, 0⟩] (-1)).length
        = 2 - (Int.natAbs (-1)) := by
  constructor
  · exact ((claim_C8_amended [⟨"u", 0, 0, 0⟩, ⟨"v", 0, 0, 0⟩] 1).1 (by decide)).2
  · exact ((claim_C8_amended [⟨"u", 0, 0, 0⟩, ⟨"v", 0, 0, 0⟩] (-1)).2 (by decide)).2

/-! ## Claim C6 -/

/-- C6: a post-identifier group with k distinct commenters (k ≥ 2)
generates exactly k·(k−1)/2 co-participation weight increments, one per
unordered pair of distinct commenters (independent of comment
multiplicity, since the group's commenter list is deduplicated first);
a group with fewer than two distinct commenters generates none. -/
theorem claim_C6 (comments : List CommentRow) (pid : String) :
    (2 ≤ (groupCommenters comments pid).length →
      (coPairsOfGroup comments pid).length
          = (groupCommenters comments pid).length
            * ((groupCommenters comments pid).length - 1) / 2
      ∧ ∀ u v : String, u ≠ v →
          (coPairsOfGroup comments pid).count (u, v)
              + (coPairsOfGroup comments pid).count (v, u)
            = if u ∈ groupCommenters comments pid ∧ v ∈ groupCommenters comments pid
              then 1 else 0)
    ∧ ((groupCommenters comments pid).length < 2
        → coPairsOfGroup comments pid = []) := by
  constructor
  · intro h2
    constructor
    · unfold coPairsOfGroup
      rw [coPairsOfList_eq_pairs2 _ (nodup_groupCommenters comments pid) h2, pairs2_length]
    · intro u v huv
      exact coPairsOfGroup_count comments pid u v huv
  · intro h2
    unfold coPairsOfGroup coPairsOfList
    rw [if_pos h2]

/-- Witness for C6 on a concrete group with three distinct commenters,
one of whom commented twice. -/
theorem claim_C6_witness :
    (coPairsOfGroup [⟨"p", "x"⟩, ⟨"p", "y"⟩, ⟨"p", "x"⟩, ⟨"p", "z"⟩] "p").length = 3
    ∧ (coPairsOfGroup [⟨"p", "x"⟩, ⟨"p", "y"⟩, ⟨"p", "x"⟩, ⟨"p", "z"⟩] "p").count ("x", "y")
        + (coPairsOfGroup [⟨"p", "x"⟩, ⟨"p", "y"⟩, ⟨"p", "x"⟩, ⟨"p", "z"⟩] "p").count ("y", "x")
      = 1 := by
  have h := (claim_C6 [⟨"p", "x"⟩, ⟨"p", "y"⟩, ⟨"p", "x"⟩, ⟨"p", "z"⟩] "p").1 (by decide)
  constructor
  · rw [h.1]
    decide
  · rw [h.2 "x" "y" (by decide)]
    decide

/-! ## Claim C9 -/

/-- C9: when the post relation holds d ≥ 1 rows with the comment's post
identifier, a comment whose (non-empty, non-deleted) author differs from
the author of every matching row generates exactly d reply-pair
increments, one per matching post row, because the left join duplicates
the comment once per match. -/
theorem claim_C9 (posts : List PostRow) (comments : List CommentRow) (c : CommentRow)
    (d : Nat) (_hc : c ∈ comments)
    (hd : (posts.filter (fun p => p.post_id = c.post_id)).length = d)
    (hd1 : 1 ≤ d)
    (hne : ∀ p ∈ posts.filter (fun p => p.post_id = c.post_id),
      ¬ c.comment_author = p.post_author)
    (h1 : c.comment_author ≠ "") (h2 : c.comment_author ≠ "[deleted]") :
    (replyPairsOfComment posts c).length = d := by
  have hnonempty : (posts.filter (fun p => p.post_id = c.post_id)).isEmpty = false := by
    rcases Bool.eq_false_or_eq_true ((posts.filter (fun p => p.post_id = c.post_id)).isEmpty)
      with h | h
    · exfalso
      rw [List.isEmpty_iff.mp h] at hd
      simp at hd
      omega
    · exact h
  rw [replyPairsOfComment_matched posts c h1 h2 hne hnonempty, List.length_map, hd]

/-- Witness for C9: two post rows share the identifier, so one comment
contributes two reply increments. -/
theorem claim_C9_witness :
    (replyPairsOfComment [⟨"p", "a"⟩, ⟨"p", "b"⟩] ⟨"p", "c"⟩).length = 2 :=
  claim_C9 [⟨"p", "a"⟩, ⟨"p", "b"⟩] [⟨"p", "c"⟩] ⟨"p", "c"⟩ 2
    (by decide) (by decide) (by decide) (by decide) (by decide) (by decide)

/-! ## Claim C4 -/

/-- C4 is refuted on the code: with min_edge_weight = 2 the graph still
contains the pure co-participation edge {bob, carol} of accumulated
weight 1 < 2, because the threshold of line 131 gates only the reply-pass
counts and the co-comment pass of lines 137-148 adds its increments
unconditionally. -/
theorem claim_C4_counterexample :
    (build_interaction_graph [⟨"p1", "alice"⟩]
        [⟨"p1", "bob"⟩, ⟨"p1", "carol"⟩] 2).hasEdge "bob" "carol" = true
    ∧ (build_interaction_graph [⟨"p1", "alice"⟩]
        [⟨"p1", "bob"⟩, ⟨"p1", "carol"⟩] 2).weight "bob" "carol" = 1
    ∧ (1 : Int) < 2 := by
  refine ⟨by decide, by decide, by decide⟩

/-- C4 (amended): the minimum-edge-weight threshold is applied only to
each orientation's reply-pair multiplicity, before the co-participation
pass; co-participation increments are added unconditionally, so for any
distinct pair the final weight is the sum of the two gated reply counts
and the ungated co-participation contribution (which can lie below the
threshold). -/
theorem claim_C4_amended (posts : List PostRow) (comments : List CommentRow) (m : Int)
    (u v : String) (huv : u ≠ v) :
    (build_interaction_graph posts comments m).weight u v
      = gatedCount m (replyCount posts comments u v)
        + gatedCount m (replyCount posts comments v u)
        + coContribution comments u v :=
  weight_build_char posts comments m u v huv

/-- Witness for the amended C4 theorem on the counterexample input. -/
theorem claim_C4_amended_witness :
    (build_interaction_graph [⟨"p1", "alice"⟩]
        [⟨"p1", "bob"⟩, ⟨"p1", "carol"⟩] 2).weight "bob" "carol"
      = gatedCount 2 (replyCount [⟨"p1", "alice"⟩] [⟨"p1", "bob"⟩, ⟨"p1", "carol"⟩] "bob" "carol")
        + gatedCount 2 (replyCount [⟨"p1", "alice"⟩] [⟨"p1", "bob"⟩, ⟨"p1", "carol"⟩] "carol" "bob")
        + coContribution [⟨"p1", "bob"⟩, ⟨"p1", "carol"⟩] "bob" "carol" :=
  claim_C4_amended [⟨"p1", "alice"⟩] [⟨"p1", "bob"⟩, ⟨"p1", "carol"⟩] 2 "bob" "carol"
    (by decide)

/-! ## Claim C1 -/

/-- C1 is refuted on the code: with a post authored by "[deleted]" and an
ordinary commenter, the built graph contains "[deleted]" as a node
(line 111-113 adds every author, including the sentinel) and an edge
between "[deleted]" and "bob" (the commenter filter of line 122 does not
apply to the post-author side of a reply pair). -/
theorem claim_C1_counterexample :
    "[deleted]" ∈ (build_interaction_graph [⟨"p1", "[deleted]"⟩] [⟨"p1", "bob"⟩] 1).nodes
    ∧ (build_interaction_graph [⟨"p1", "[deleted]"⟩] [⟨"p1", "bob"⟩] 1).hasEdge
        "[deleted]" "bob" = true
    ∧ (build_interaction_graph [⟨"p1", "[deleted]"⟩] [⟨"p1", "bob"⟩] 1).weight
        "[deleted]" "bob" = 1 := by
  refine ⟨by decide, by decide, by decide⟩

/-- C1 (amended): a "[deleted]" comment author never appears as the
commenter endpoint of a reply pair (lines 122-123 skip such rows), but
the sentinel is not otherwise excluded: every author — the sentinel
included — becomes a graph node, and the sentinel can be an edge endpoint
as a post author or as a co-participating commenter. -/
theorem claim_C1_amended (posts : List PostRow) (comments : List CommentRow) (m : Int) :
    (∀ p ∈ replyPairs posts comments, p.2 ≠ "[deleted]")
    ∧ (∀ u, u ∈ allUsers posts comments
        → u ∈ (build_interaction_graph posts comments m).nodes) := by
  constructor
  · intro p hp
    exact (replyPairs_snd posts comments p hp).2
  · intro u hu
    exact mem_nodes_build posts comments m u hu

/-- Witness for the amended C1 theorem: a concrete reply pair's commenter
endpoint, and the sentinel author becoming a node. -/
theorem claim_C1_amended_witness :
    (("alice", "bob") : String × String).2 ≠ "[deleted]"
    ∧ "[deleted]" ∈ (build_interaction_graph [⟨"p1", "[deleted]"⟩] [⟨"p1", "bob"⟩] 1).nodes := by
  refine ⟨?_, ?_⟩
  · exact (claim_C1_amended [⟨"p1", "alice"⟩] [⟨"p1", "bob"⟩] 1).1 ("alice", "bob") (by decide)
  · exact (claim_C1_amended [⟨"p1", "[deleted]"⟩] [⟨"p1", "bob"⟩] 1).2 "[deleted]" (by decide)

/-! ## Claim C5 -/

/-- C5 is refuted on the code: comments on the unknown post "p2" still
produce reply pairs — between the sentinel "[deleted]" (the left join's
missing post author, line 120) and each commenter — and those pairs
become graph edges; the co-participation edge within the group also
appears, as the claim says. -/
theorem claim_C5_counterexample :
    replyPairs [⟨"p1", "alice"⟩] [⟨"p2", "bob"⟩, ⟨"p2", "carol"⟩]
        = [("[deleted]", "bob"), ("[deleted]", "carol")]
    ∧ (build_interaction_graph [⟨"p1", "alice"⟩]
        [⟨"p2", "bob"⟩, ⟨"p2", "carol"⟩] 1).hasEdge "[deleted]" "bob" = true
    ∧ (build_interaction_graph [⟨"p1", "alice"⟩]
        [⟨"p2", "bob"⟩, ⟨"p2", "carol"⟩] 1).weight "bob" "carol" = 1 := by
  refine ⟨by decide, by decide, by decide⟩

/-- C5 (amended): a comment whose post identifier matches no post row
contributes exactly one reply pair, between the sentinel "[deleted]" and
its commenter (unless the commenter itself is empty or deleted), rather
than no reply edge; its co-participation contribution within its
post-identifier group is unchanged (at least one increment for any
group-mate with a different author). -/
theorem claim_C5_amended (posts : List PostRow) (comments : List CommentRow)
    (c c2 : CommentRow)
    (hnomatch : ∀ p ∈ posts, ¬ p.post_id = c.post_id)
    (h1 : c.comment_author ≠ "") (h2 : c.comment_author ≠ "[deleted]")
    (hc : c ∈ comments) (hc2 : c2 ∈ comments)
    (hsame : c2.post_id = c.post_id)
    (hdiff : c2.comment_author ≠ c.comment_author) :
    replyPairsOfComment posts c = [("[deleted]", c.comment_author)]
    ∧ 1 ≤ coContribution comments c.comment_author c2.comment_author := by
  constructor
  · exact replyPairsOfComment_unmatched posts c hnomatch h1 h2
  · have hpid : c.post_id ∈ groupIds comments := mem_groupIds comments c hc
    have hu : c.comment_author ∈ groupCommenters comments c.post_id :=
      mem_groupCommenters comments c c.post_id hc rfl
    have hv : c2.comment_author ∈ groupCommenters comments c.post_id :=
      mem_groupCommenters comments c2 c.post_id hc2 hsame
    have hcount := coPairsOfGroup_count comments c.post_id
      c.comment_author c2.comment_author (fun h => hdiff h.symm)
    rw [if_pos ⟨hu, hv⟩] at hcount
    have hge := coContribution_ge_group comments c.post_id
      c.comment_author c2.comment_author hpid
    omega

/-- Witness for the amended C5 theorem on the counterexample input. -/
theorem claim_C5_amended_witness :
    replyPairsOfComment [⟨"p1", "alice"⟩] ⟨"p2", "bob"⟩ = [("[deleted]", "bob")]
    ∧ 1 ≤ coContribution [⟨"p2", "bob"⟩, ⟨"p2", "carol"⟩] "bob" "carol" :=
  claim_C5_amended [⟨"p1", "alice"⟩] [⟨"p2", "bob"⟩, ⟨"p2", "carol"⟩]
    ⟨"p2", "bob"⟩ ⟨"p2", "carol"⟩
    (by decide) (by decide) (by decide) (by decide) (by decide) (by decide) (by decide)

/-! ## Claim C10 -/

/-- C10: a comment whose author is the empty string generates no reply
pair (line 122 skips it), yet the empty-string account still becomes a
graph node (it is in the author union of line 111) and still takes part
in co-participation as an ordinary group commenter. -/
theorem claim_C10 (posts : List PostRow) (comments : List CommentRow) (m : Int)
    (c c2 : CommentRow)
    (hc : c ∈ comments) (hempty : c.comment_author = "")
    (hc2 : c2 ∈ comments) (hsame : c2.post_id = c.post_id)
    (hdiff : c2.comment_author ≠ "") :
    "" ∈ (build_interaction_graph posts comments m).nodes
    ∧ replyPairsOfComment posts c = []
    ∧ "" ∈ groupCommenters comments c.post_id
    ∧ 1 ≤ coContribution comments "" c2.comment_author := by
  have hu : "" ∈ groupCommenters comments c.post_id := by
    have h := mem_groupCommenters comments c c.post_id hc rfl
    rwa [hempty] at h
  refine ⟨?_, ?_, hu, ?_⟩
  · apply mem_nodes_build
    have h := mem_allUsers_of_comment posts comments c hc
    rwa [hempty] at h
  · exact replyPairsOfComment_skip posts c (Or.inl hempty)
  · have hv : c2.comment_author ∈ groupCommenters comments c.post_id :=
      mem_groupCommenters comments c2 c.post_id hc2 hsame
    have hcount := coPairsOfGroup_count comments c.post_id "" c2.comment_author
      (fun h => hdiff h.symm)
    rw [if_pos ⟨hu, hv⟩] at hcount
    have hge := coContribution_ge_group comments c.post_id "" c2.comment_author
      (mem_groupIds comments c hc)
    omega

/-- Witness for C10 on a concrete empty-author comment sharing its post
with an ordinary commenter. -/
theorem claim_C10_witness :
    "" ∈ (build_interaction_graph [⟨"p", "a"⟩] [⟨"p", ""⟩, ⟨"p", "b"⟩] 1).nodes
    ∧ replyPairsOfComment [⟨"p", "a"⟩] ⟨"p", ""⟩ = []
    ∧ "" ∈ groupCommenters [⟨"p", ""⟩, ⟨"p", "b"⟩] "p"
    ∧ 1 ≤ coContribution [⟨"p", ""⟩, ⟨"p", "b"⟩] "" "b" :=
  claim_C10 [⟨"p", "a"⟩] [⟨"p", ""⟩, ⟨"p", "b"⟩] 1 ⟨"p", ""⟩ ⟨"p", "b"⟩
    (by decide) (by decide) (by decide) (by decide) (by decide)

/-! ## Claim C3 -/

/-- C3 is refuted on the code: `sort_values` is given no account-name
key, and the stable multi-key sort keeps fully tied records in the
graph's node-iteration order; with nodes iterated as ["b", "a"] and all
three scores equal (as for a two-node graph with one edge: degree
centrality 1, betweenness 0, PageRank 1/2 each), "b" stays before "a"
even though "a" is lexicographically smaller. -/
theorem claim_C3_counterexample :
    compute_centralities ["b", "a"] (fun _ => 1) (fun _ => 0) (some (fun _ => (1 : ℚ)/2))
      = [⟨"b", 1, 0, (1 : ℚ)/2⟩, ⟨"a", 1, 0, (1 : ℚ)/2⟩]
    ∧ "a".data < "b".data := by
  constructor
  · have hlt : centLt ⟨"a", 1, 0, (1 : ℚ)/2⟩ ⟨"b", 1, 0, (1 : ℚ)/2⟩ = false := by
      simp only [centLt, decide_eq_false_iff_not]
      norm_num
    unfold compute_centralities
    rw [if_neg (by decide)]
    have hrows : centRows ["b", "a"] (fun _ => 1) (fun _ => 0) (some (fun _ => (1 : ℚ)/2))
        = [⟨"b", 1, 0, (1 : ℚ)/2⟩, ⟨"a", 1, 0, (1 : ℚ)/2⟩] := rfl
    rw [hrows]
    show insertS centLt ⟨"b", 1, 0, (1 : ℚ)/2⟩ [⟨"a", 1, 0, (1 : ℚ)/2⟩] = _
    unfold insertS
    rw [if_neg (Bool.eq_false_iff.mp hlt)]
  · decide

/-- C3 (amended): the table returned by compute_centralities is a
permutation of the per-node rows, sorted descending by PageRank, then
degree centrality, then betweenness centrality; records tied on all
three scores keep the graph's node-iteration order (the sort is stable),
with no lexicographic tie-break on the account identifier. -/
theorem claim_C3_amended (nodes : List String) (deg btw : String → ℚ)
    (prResult : Option (String → ℚ)) :
    (compute_centralities nodes deg btw prResult).Perm
        (centRows nodes deg btw prResult)
    ∧ (compute_centralities nodes deg btw prResult).Pairwise
        (fun r s => centLt s r = false)
    ∧ ∀ k : ℚ × ℚ × ℚ,
        (compute_centralities nodes deg btw prResult).filter
            (fun r => decide (centKey r = k))
          = (centRows nodes deg btw prResult).filter
              (fun r => decide (centKey r = k)) := by
  unfold compute_centralities
  by_cases h0 : nodes.length = 0
  · rw [if_pos h0]
    have hnil : nodes = [] := List.length_eq_zero.mp h0
    subst hnil
    have hcr : centRows [] deg btw prResult = [] := rfl
    exact ⟨hcr ▸ List.Perm.refl _, List.Pairwise.nil, fun k => by rw [hcr]⟩
  · rw [if_neg h0]
    refine ⟨sortS_perm centLt _, ?_, fun k => ?_⟩
    · exact pairwise_sortS centLt centLt_negtrans centLt_asym _
    · apply filter_sortS
      intro a b ha hb
      have ha' := of_decide_eq_true ha
      have hb' := of_decide_eq_true hb
      exact centLt_of_key_eq a b (ha'.trans hb'.symm)
